import Mathlib

set_option maxRecDepth 40000

/-!
Shallow embedding of the document ingestion and retrieval pipeline of
`src/api/index.py` (MBA Copilot).  Python strings are modelled as `List Char`
for the chunking code and as `String` for the chat and upload plumbing.
The Python functions `str.rfind`, `str.strip`, slicing and the `str.replace` used for
newline normalization are embedded explicitly below.
-/

/-- Python whitespace characters stripped by `str.strip()` (the ASCII range,
which covers all inputs the properties below quantify over). -/
def isPySpace (c : Char) : Bool :=
  c == ' ' || c == '\t' || c == '\n' || c == '\r' || c == '\x0b' || c == '\x0c'

/-- Remove trailing characters satisfying `p` (helper for `pyStrip`). -/
def dropTrailing (p : Char → Bool) (l : List Char) : List Char :=
  (l.reverse.dropWhile p).reverse

/-- Python `str.strip()`: drop leading and trailing whitespace. -/
def pyStrip (l : List Char) : List Char :=
  dropTrailing isPySpace (l.dropWhile isPySpace)

/-- Python `text.replace('\r\n', '\n')`: left-to-right, non-overlapping
replacement of the two-character sequence. -/
def normalizeNewlines : List Char → List Char
  | [] => []
  | [c] => [c]
  | a :: b :: rest =>
    if a == '\r' && b == '\n' then '\n' :: normalizeNewlines rest
    else a :: normalizeNewlines (b :: rest)

/-- Python slice `t[start:stop]` for non-negative indices (clamped). -/
def pySlice (t : List Char) (start stop : Nat) : List Char :=
  (t.drop start).take (stop - start)

/-- Does `sub` occur in `t` at position `p`? -/
def subAt (t sub : List Char) (p : Nat) : Bool :=
  (t.drop p).take sub.length == sub

/-- Backward scan used by `pyRfind`: try positions `lo + k`, `lo + k - 1`,
..., `lo`, returning the first (hence highest) occurrence position. -/
def rfindGo (t sub : List Char) (lo : Nat) : Nat → Option Nat
  | 0 => if subAt t sub lo then some lo else none
  | k + 1 =>
    if subAt t sub (lo + (k + 1)) then some (lo + (k + 1)) else rfindGo t sub lo k

/-- Python `t.rfind(sub, lo, hi)`: the highest `p` with `lo ≤ p`,
`p + sub.length ≤ min hi (length of t)` and an occurrence of `sub` at `p`;
`-1` when there is none. -/
def pyRfind (t sub : List Char) (lo hi : Nat) : Int :=
  if lo + sub.length ≤ min hi t.length then
    match rfindGo t sub lo (min hi t.length - sub.length - lo) with
    | some p => (p : Int)
    | none => -1
  else -1

/-- `Config.CHUNK_SIZE` from `src/api/index.py`. -/
def CHUNK_SIZE : Nat := 1000

/-- `Config.CHUNK_OVERLAP` from `src/api/index.py`. -/
def CHUNK_OVERLAP : Nat := 200

/-- The cut position `end` chosen by `chunk_text` for the window starting at
`start` (`src/api/index.py` lines 127-137): paragraph break if the backward
search finds one, otherwise sentence break, otherwise `start + CHUNK_SIZE`. -/
def chunkEnd (t : List Char) (start : Nat) : Nat :=
  if start + CHUNK_SIZE < t.length then
    let pb := pyRfind t ['\n', '\n'] (start + CHUNK_SIZE / 2) (start + CHUNK_SIZE)
    if 0 < pb then pb.toNat
    else
      let sb := pyRfind t ['.', ' '] (start + CHUNK_SIZE / 2) (start + CHUNK_SIZE)
      if 0 < sb then sb.toNat + 1
      else start + CHUNK_SIZE
  else start + CHUNK_SIZE

/-- If `rfindGo` returns a position it is an occurrence inside the scanned
range and no later position in the range is an occurrence. -/
theorem rfindGo_some (t sub : List Char) (lo : Nat) :
    ∀ k p, rfindGo t sub lo k = some p →
      lo ≤ p ∧ p ≤ lo + k ∧ subAt t sub p = true ∧
        ∀ q, p < q → q ≤ lo + k → subAt t sub q = false := by
  intro k
  induction k with
  | zero =>
    intro p h
    unfold rfindGo at h
    by_cases hs : subAt t sub lo
    · simp only [hs, if_true, Option.some.injEq] at h
      subst h
      exact ⟨Nat.le_refl _, Nat.le_refl _, hs, fun q hq hq2 => absurd (Nat.lt_of_lt_of_le hq hq2) (Nat.lt_irrefl _)⟩
    · simp [hs] at h
  | succ k ih =>
    intro p h
    unfold rfindGo at h
    by_cases hs : subAt t sub (lo + (k + 1))
    · simp only [hs, if_true, Option.some.injEq] at h
      subst h
      refine ⟨Nat.le_add_right _ _, Nat.le_refl _, hs, ?_⟩
      intro q hq hq2
      omega
    · simp only [hs, if_false, Bool.false_eq_true] at h
      obtain ⟨h1, h2, h3, h4⟩ := ih p h
      refine ⟨h1, Nat.le_trans h2 (by omega), h3, ?_⟩
      intro q hq hq2
      rcases Nat.lt_or_ge q (lo + (k + 1)) with hlt | hge
      · exact h4 q hq (by omega)
      · have : q = lo + (k + 1) := by omega
        subst this
        exact Bool.not_eq_true _ ▸ (by simpa using hs)

/-- If `rfindGo` fails, no position in the scanned range is an occurrence. -/
theorem rfindGo_none (t sub : List Char) (lo : Nat) :
    ∀ k, rfindGo t sub lo k = none →
      ∀ q, lo ≤ q → q ≤ lo + k → subAt t sub q = false := by
  intro k
  induction k with
  | zero =>
    intro h q hq1 hq2
    unfold rfindGo at h
    by_cases hs : subAt t sub lo
    · simp [hs] at h
    · have : q = lo := by omega
      subst this
      simpa using hs
  | succ k ih =>
    intro h q hq1 hq2
    unfold rfindGo at h
    by_cases hs : subAt t sub (lo + (k + 1))
    · simp [hs] at h
    · simp only [hs, if_false, Bool.false_eq_true] at h
      rcases Nat.lt_or_ge q (lo + (k + 1)) with hlt | hge
      · exact ih h q hq1 (by omega)
      · have : q = lo + (k + 1) := by omega
        subst this
        simpa using hs

/-- A strictly positive `pyRfind` result is the highest occurrence position
within the scanned range. -/
theorem pyRfind_pos (t sub : List Char) (lo hi : Nat)
    (h : 0 < pyRfind t sub lo hi) :
    ∃ p : Nat, pyRfind t sub lo hi = (p : Int) ∧ lo ≤ p ∧
      p + sub.length ≤ min hi t.length ∧ subAt t sub p = true ∧
      ∀ q, p < q → q + sub.length ≤ min hi t.length → subAt t sub q = false := by
  unfold pyRfind at *
  by_cases hg : lo + sub.length ≤ min hi t.length
  · simp only [hg, if_true] at h ⊢
    cases hr : rfindGo t sub lo (min hi t.length - sub.length - lo) with
    | none => rw [hr] at h; exact absurd h (by norm_num)
    | some p =>
      obtain ⟨h1, h2, h3, h4⟩ := rfindGo_some t sub lo _ p hr
      refine ⟨p, rfl, h1, by omega, h3, ?_⟩
      intro q hq1 hq2
      exact h4 q hq1 (by omega)
  · simp [hg] at h

/-- A non-positive `pyRfind` result means there is no occurrence in the
scanned range (provided the range starts after position 0). -/
theorem pyRfind_nonpos (t sub : List Char) (lo hi : Nat) (hlo : 0 < lo)
    (h : pyRfind t sub lo hi ≤ 0) :
    ∀ q, lo ≤ q → q + sub.length ≤ min hi t.length → subAt t sub q = false := by
  intro q hq1 hq2
  unfold pyRfind at h
  by_cases hg : lo + sub.length ≤ min hi t.length
  · simp only [hg, if_true] at h
    cases hr : rfindGo t sub lo (min hi t.length - sub.length - lo) with
    | none => exact rfindGo_none t sub lo _ hr q hq1 (by omega)
    | some p =>
      obtain ⟨h1, _, _, _⟩ := rfindGo_some t sub lo _ p hr
      rw [hr] at h
      have hh : (p : Int) ≤ 0 := h
      have : (0:Int) < (p : Int) := by exact_mod_cast Nat.lt_of_lt_of_le hlo h1
      omega
  · omega

/-- Lower bound for the chosen cut: it is at least the window midpoint, so a
cut is never taken at or before `start`. -/
theorem chunkEnd_lb (t : List Char) (start : Nat) :
    start + 500 ≤ chunkEnd t start := by
  unfold chunkEnd
  by_cases h1 : start + CHUNK_SIZE < t.length
  · simp only [h1, if_true]
    by_cases h2 : 0 < pyRfind t ['\n', '\n'] (start + CHUNK_SIZE / 2) (start + CHUNK_SIZE)
    · simp only [h2, if_true]
      obtain ⟨p, hp, hp1, _, _, _⟩ := pyRfind_pos _ _ _ _ h2
      rw [hp]
      simp only [Int.toNat_ofNat]
      simp [CHUNK_SIZE] at hp1 ⊢
      omega
    · simp only [h2, if_false]
      by_cases h3 : 0 < pyRfind t ['.', ' '] (start + CHUNK_SIZE / 2) (start + CHUNK_SIZE)
      · simp only [h3, if_true]
        obtain ⟨p, hp, hp1, _, _, _⟩ := pyRfind_pos _ _ _ _ h3
        rw [hp]
        simp only [Int.toNat_ofNat]
        simp [CHUNK_SIZE] at hp1 ⊢
        omega
      · simp only [h3, if_false]
        simp [CHUNK_SIZE]
  · simp only [h1, if_false]
    simp [CHUNK_SIZE]

/-- Upper bound for the chosen cut: never beyond `start + CHUNK_SIZE`. -/
theorem chunkEnd_ub (t : List Char) (start : Nat) :
    chunkEnd t start ≤ start + 1000 := by
  unfold chunkEnd
  by_cases h1 : start + CHUNK_SIZE < t.length
  · simp only [h1, if_true]
    by_cases h2 : 0 < pyRfind t ['\n', '\n'] (start + CHUNK_SIZE / 2) (start + CHUNK_SIZE)
    · simp only [h2, if_true]
      obtain ⟨p, hp, _, hp2, _, _⟩ := pyRfind_pos _ _ _ _ h2
      rw [hp]
      simp only [Int.toNat_ofNat]
      simp [CHUNK_SIZE] at hp2 ⊢
      omega
    · simp only [h2, if_false]
      by_cases h3 : 0 < pyRfind t ['.', ' '] (start + CHUNK_SIZE / 2) (start + CHUNK_SIZE)
      · simp only [h3, if_true]
        obtain ⟨p, hp, _, hp2, _, _⟩ := pyRfind_pos _ _ _ _ h3
        rw [hp]
        simp only [Int.toNat_ofNat]
        simp [CHUNK_SIZE] at hp2 ⊢
        omega
      · simp only [h3, if_false]
        simp [CHUNK_SIZE]
  · simp only [h1, if_false]
    simp [CHUNK_SIZE]

/-- The scanning loop of `chunk_text` (`src/api/index.py` lines 125-145):
slice the window up to the chosen cut, strip it, keep it when non-empty, and
advance `start` to `cut - CHUNK_OVERLAP` (Python clamps a negative new start
to 0; Nat subtraction does the same). -/
def chunkLoop (t : List Char) (start : Nat) : List (List Char) :=
  if _h : start < t.length then
    if pyStrip (pySlice t start (chunkEnd t start)) = [] then
      chunkLoop t (chunkEnd t start - CHUNK_OVERLAP)
    else
      pyStrip (pySlice t start (chunkEnd t start)) ::
        chunkLoop t (chunkEnd t start - CHUNK_OVERLAP)
  else []
termination_by t.length - start
decreasing_by
  all_goals
    have hlb := chunkEnd_lb t start
    simp only [CHUNK_OVERLAP]
    omega

/-- `chunk_text` from `src/api/index.py` lines 117-147. -/
def chunk_text (text : List Char) : List (List Char) :=
  let t := pyStrip (normalizeNewlines text)
  if t.length ≤ CHUNK_SIZE then
    if t = [] then [] else [t]
  else chunkLoop t 0

/-- Does the two-character sequence `a b` occur anywhere in the list? -/
def hasPair (a b : Char) : List Char → Bool
  | [] => false
  | [_] => false
  | x :: y :: rest => (x == a && y == b) || hasPair a b (y :: rest)

/-- Unfolding of `hasPair` on a list with at least two elements. -/
theorem hasPair_cons_false (a b x y : Char) (rest : List Char)
    (h : hasPair a b (x :: y :: rest) = false) :
    ¬(x = a ∧ y = b) ∧ hasPair a b (y :: rest) = false := by
  unfold hasPair at h
  simp only [Bool.or_eq_false_iff, Bool.and_eq_false_iff, beq_eq_false_iff_ne] at h
  obtain ⟨h1, h2⟩ := h
  refine ⟨?_, h2⟩
  rintro ⟨rfl, rfl⟩
  rcases h1 with h1 | h1 <;> exact h1 rfl

/-- `subAt` steps through a cons cell. -/
theorem subAt_cons_succ (x : Char) (rest sub : List Char) (p : Nat) :
    subAt (x :: rest) sub (p + 1) = subAt rest sub p := by
  simp [subAt, List.drop_succ_cons]

/-- If the two-character sequence `a b` occurs nowhere in `t`, then `subAt`
fails at every position. -/
theorem subAt_pair_eq_false (a b : Char) (t : List Char)
    (h : hasPair a b t = false) : ∀ p, subAt t [a, b] p = false := by
  induction t using hasPair.induct a b with
  | case1 =>
    intro p
    simp [subAt]
  | case2 x =>
    intro p
    cases p with
    | zero => simp [subAt]
    | succ p => simp [subAt]
  | case3 x y rest ih =>
    obtain ⟨h1, h2⟩ := hasPair_cons_false a b x y rest h
    intro p
    cases p with
    | zero =>
      have hstep : subAt (x :: y :: rest) [a, b] 0 = ([x, y] == [a, b]) := by
        simp [subAt]
      rw [hstep]
      simp only [beq_eq_false_iff_ne, ne_eq, List.cons.injEq, and_true, not_and]
      intro hxa hyb
      exact h1 ⟨hxa, hyb⟩
    | succ p =>
      rw [subAt_cons_succ]
      exact ih h2 p

/-- When newline pairs are absent, newline normalization is the identity. -/
theorem normalizeNewlines_eq_self (l : List Char)
    (h : hasPair '\r' '\n' l = false) : normalizeNewlines l = l := by
  induction l using hasPair.induct '\r' '\n' with
  | case1 => rfl
  | case2 c => rfl
  | case3 x y rest ih =>
    obtain ⟨h1, h2⟩ := hasPair_cons_false '\r' '\n' x y rest h
    have hcond : (x == '\r' && y == '\n') = false := by
      rcases Bool.eq_false_or_eq_true (x == '\r' && y == '\n') with ht | hf
      · exfalso
        rw [Bool.and_eq_true, beq_iff_eq, beq_iff_eq] at ht
        exact h1 ht
      · exact hf
    unfold normalizeNewlines
    rw [hcond]
    simp only [Bool.false_eq_true, if_false]
    rw [ih h2]

/-- `pyStrip` removes a whitespace-only block from each side of the list. -/
theorem pyStrip_decomp (l : List Char) :
    ∃ a b, (∀ c ∈ a, isPySpace c = true) ∧ (∀ c ∈ b, isPySpace c = true) ∧
      a ++ pyStrip l ++ b = l := by
  refine ⟨l.takeWhile isPySpace,
    (((l.dropWhile isPySpace).reverse.takeWhile isPySpace)).reverse, ?_, ?_, ?_⟩
  · intro c hc
    exact List.mem_takeWhile_imp hc
  · intro c hc
    rw [List.mem_reverse] at hc
    exact List.mem_takeWhile_imp hc
  · have hmid : pyStrip l ++ ((l.dropWhile isPySpace).reverse.takeWhile isPySpace).reverse
        = l.dropWhile isPySpace := by
      unfold pyStrip dropTrailing
      rw [← List.reverse_append, List.takeWhile_append_dropWhile, List.reverse_reverse]
    rw [List.append_assoc, hmid, List.takeWhile_append_dropWhile]

/-- Stripping can only shorten a list. -/
theorem pyStrip_length_le (l : List Char) : (pyStrip l).length ≤ l.length := by
  obtain ⟨a, b, _, _, h⟩ := pyStrip_decomp l
  have hlen := congrArg List.length h
  simp only [List.length_append] at hlen
  omega

/-- The strip of a list is empty exactly when the list is all whitespace. -/
theorem pyStrip_eq_nil_iff (l : List Char) :
    pyStrip l = [] ↔ ∀ c ∈ l, isPySpace c = true := by
  constructor
  · intro h c hc
    obtain ⟨a, b, ha, hb, hd⟩ := pyStrip_decomp l
    rw [h, List.append_nil] at hd
    rw [← hd] at hc
    rcases List.mem_append.mp hc with hca | hcb
    · exact ha c hca
    · exact hb c hcb
  · intro h
    unfold pyStrip dropTrailing
    rw [List.dropWhile_eq_nil_iff.mpr h]
    rfl

/-- `dropWhile` is the identity when the head does not satisfy the predicate. -/
theorem dropWhile_eq_self_of_head (p : Char → Bool) (l : List Char)
    (h : ∀ c, l.head? = some c → p c = false) : l.dropWhile p = l := by
  cases l with
  | nil => rfl
  | cons x xs =>
    rw [List.dropWhile_cons, h x rfl]
    simp

/-- A list with non-whitespace first and last character is fixed by strip. -/
theorem pyStrip_eq_self (l : List Char)
    (h1 : ∀ c, l.head? = some c → isPySpace c = false)
    (h2 : ∀ c, l.getLast? = some c → isPySpace c = false) : pyStrip l = l := by
  unfold pyStrip dropTrailing
  rw [dropWhile_eq_self_of_head _ _ h1]
  rw [dropWhile_eq_self_of_head _ _ (fun c hc => h2 c (by rw [← List.head?_reverse]; exact hc))]
  exact l.reverse_reverse

/-- A Python slice is a contiguous piece of the original list. -/
theorem pySlice_infix (t : List Char) (s e : Nat) :
    ∃ pre post, pre ++ pySlice t s e ++ post = t := by
  refine ⟨t.take s, (t.drop s).drop (e - s), ?_⟩
  unfold pySlice
  rw [List.append_assoc, List.take_append_drop, List.take_append_drop]

/-- A slice has length at most the width of the requested window. -/
theorem pySlice_length_le (t : List Char) (s e : Nat) :
    (pySlice t s e).length ≤ e - s := by
  unfold pySlice
  simp only [List.length_take, List.length_drop]
  omega

/-- Each kept chunk is the strip of a slice, hence a contiguous substring of
the scanned text. -/
theorem chunkPiece_infix (t : List Char) (s e : Nat) :
    ∃ pre post, pre ++ pyStrip (pySlice t s e) ++ post = t := by
  obtain ⟨a, b, _, _, hab⟩ := pyStrip_decomp (pySlice t s e)
  obtain ⟨pre, post, hp⟩ := pySlice_infix t s e
  refine ⟨pre ++ a, b ++ post, ?_⟩
  calc (pre ++ a) ++ pyStrip (pySlice t s e) ++ (b ++ post)
      = pre ++ (a ++ pyStrip (pySlice t s e) ++ b) ++ post := by
        simp only [List.append_assoc]
    _ = pre ++ pySlice t s e ++ post := by rw [hab]
    _ = t := hp

/-- Each kept chunk fits in `CHUNK_SIZE` characters. -/
theorem chunkPiece_length_le (t : List Char) (start : Nat) :
    (pyStrip (pySlice t start (chunkEnd t start))).length ≤ CHUNK_SIZE := by
  have h1 := pyStrip_length_le (pySlice t start (chunkEnd t start))
  have h2 := pySlice_length_le t start (chunkEnd t start)
  have h3 := chunkEnd_ub t start
  simp only [CHUNK_SIZE]
  omega

/-- Unfolding of the scanning loop while the scan position is in range. -/
theorem chunkLoop_of_lt (t : List Char) (start : Nat) (h : start < t.length) :
    chunkLoop t start =
      if pyStrip (pySlice t start (chunkEnd t start)) = [] then
        chunkLoop t (chunkEnd t start - CHUNK_OVERLAP)
      else
        pyStrip (pySlice t start (chunkEnd t start)) ::
          chunkLoop t (chunkEnd t start - CHUNK_OVERLAP) := by
  rw [chunkLoop]
  rw [dif_pos h]

/-- The scanning loop stops when the scan position reaches the text length. -/
theorem chunkLoop_of_ge (t : List Char) (start : Nat) (h : ¬ start < t.length) :
    chunkLoop t start = [] := by
  rw [chunkLoop]
  rw [dif_neg h]

/-- With no paragraph and no sentence break anywhere in the text, every cut
falls exactly at `start + CHUNK_SIZE`. -/
theorem chunkEnd_noBreaks (t : List Char)
    (hn : hasPair '\n' '\n' t = false) (hss : hasPair '.' ' ' t = false)
    (start : Nat) : chunkEnd t start = start + CHUNK_SIZE := by
  unfold chunkEnd
  by_cases h1 : start + CHUNK_SIZE < t.length
  · simp only [h1, if_true]
    have hpb : ¬ 0 < pyRfind t ['\n', '\n'] (start + CHUNK_SIZE / 2) (start + CHUNK_SIZE) := by
      intro hpos
      obtain ⟨p, _, _, _, hocc, _⟩ := pyRfind_pos _ _ _ _ hpos
      rw [subAt_pair_eq_false '\n' '\n' t hn p] at hocc
      exact Bool.false_ne_true hocc
    have hsb : ¬ 0 < pyRfind t ['.', ' '] (start + CHUNK_SIZE / 2) (start + CHUNK_SIZE) := by
      intro hpos
      obtain ⟨p, _, _, _, hocc, _⟩ := pyRfind_pos _ _ _ _ hpos
      rw [subAt_pair_eq_false '.' ' ' t hss p] at hocc
      exact Bool.false_ne_true hocc
    rw [if_neg hpb, if_neg hsb]
  · simp only [h1, if_false]

/-- Defined from the wording of the spec for the cut policy (spec 4.2 step 2): the
nearest break at or after the window midpoint `mid` whose occurrence fits
before the window end `e`, i.e. the greatest occurrence position in
`[mid, e - sub.length]`, if one exists. -/
def specBreakPos (t sub : List Char) (mid e : Nat) : Option Nat :=
  let g := Nat.findGreatest (fun p => mid ≤ p ∧ subAt t sub p = true) (e - sub.length)
  if mid ≤ g ∧ subAt t sub g = true then some g else none

/-- Defined from the wording of the spec (spec 4.2 step 2): cut at the nearest
paragraph break between window midpoint and window end; otherwise just past
the nearest sentence break there; otherwise exactly at `start + CHUNK_SIZE`. -/
def specChunkEnd (t : List Char) (start : Nat) : Nat :=
  match specBreakPos t ['\n', '\n'] (start + CHUNK_SIZE / 2) (start + CHUNK_SIZE) with
  | some p => p
  | none =>
    match specBreakPos t ['.', ' '] (start + CHUNK_SIZE / 2) (start + CHUNK_SIZE) with
    | some p => p + 1
    | none => start + CHUNK_SIZE

/-- When the backward search succeeds, the spec-side greatest-occurrence
computation returns exactly the found position. -/
theorem specBreakPos_of_pos (t sub : List Char) (mid e : Nat)
    (he : e ≤ t.length) (h : 0 < pyRfind t sub mid e) :
    specBreakPos t sub mid e = some (pyRfind t sub mid e).toNat := by
  obtain ⟨p, hp, h1, h2, h3, h4⟩ := pyRfind_pos t sub mid e h
  rw [Nat.min_eq_left he] at h2 h4
  rw [hp]
  simp only [Int.toNat_ofNat]
  unfold specBreakPos
  have hPp : mid ≤ p ∧ subAt t sub p = true := ⟨h1, h3⟩
  have hpb : p ≤ e - sub.length := by omega
  have hg1 : p ≤ Nat.findGreatest (fun q => mid ≤ q ∧ subAt t sub q = true) (e - sub.length) :=
    Nat.le_findGreatest hpb hPp
  have hg2 : Nat.findGreatest (fun q => mid ≤ q ∧ subAt t sub q = true) (e - sub.length)
      ≤ e - sub.length := Nat.findGreatest_le _
  have hgP : mid ≤ Nat.findGreatest (fun q => mid ≤ q ∧ subAt t sub q = true) (e - sub.length) ∧
      subAt t sub (Nat.findGreatest (fun q => mid ≤ q ∧ subAt t sub q = true) (e - sub.length)) = true :=
    Nat.findGreatest_spec (P := fun q => mid ≤ q ∧ subAt t sub q = true) hpb hPp
  have hgp : Nat.findGreatest (fun q => mid ≤ q ∧ subAt t sub q = true) (e - sub.length) = p := by
    by_contra hne
    have hlt : p < Nat.findGreatest (fun q => mid ≤ q ∧ subAt t sub q = true) (e - sub.length) := by
      omega
    have := h4 _ hlt (by omega)
    rw [this] at hgP
    exact Bool.false_ne_true hgP.2
  rw [hgp]
  rw [if_pos hPp]

/-- When the backward search fails, the spec-side computation finds nothing. -/
theorem specBreakPos_of_nonpos (t sub : List Char) (mid e : Nat) (hlo : 0 < mid)
    (he : e ≤ t.length) (h : pyRfind t sub mid e ≤ 0) :
    specBreakPos t sub mid e = none := by
  have hnone := pyRfind_nonpos t sub mid e hlo h
  unfold specBreakPos
  rw [if_neg]
  intro hg
  have hgb : Nat.findGreatest (fun q => mid ≤ q ∧ subAt t sub q = true) (e - sub.length)
      ≤ e - sub.length := Nat.findGreatest_le _
  rcases le_or_lt sub.length e with hse | hse
  · have := hnone _ hg.1 (by rw [Nat.min_eq_left he]; omega)
    rw [this] at hg
    exact Bool.false_ne_true hg.2
  · have hg0 : Nat.findGreatest (fun q => mid ≤ q ∧ subAt t sub q = true) (e - sub.length) = 0 := by
      omega
    rw [hg0] at hg
    omega

/-- The `if chunk: chunks.append(chunk)` step of the loop: keep a stripped
window only when it is non-empty. -/
def consNonEmpty (c : List Char) (rest : List (List Char)) : List (List Char) :=
  if c = [] then rest else c :: rest

/-- The scanning loop phrased with `consNonEmpty`. -/
theorem chunkLoop_step (t : List Char) (start : Nat) (h : start < t.length) :
    chunkLoop t start =
      consNonEmpty (pyStrip (pySlice t start (chunkEnd t start)))
        (chunkLoop t (chunkEnd t start - CHUNK_OVERLAP)) := by
  rw [chunkLoop_of_lt t start h]
  rfl

/-- For a text of 2401 to 2500 characters with no paragraph break and no
sentence break, the loop visits exactly the windows starting at 0, 800, 1600
and 2400 and keeps each stripped window that is non-empty. -/
theorem chunkLoop_noBreaks (t : List Char) (h1 : 2400 < t.length)
    (h2 : t.length ≤ 2500)
    (hn : hasPair '\n' '\n' t = false) (hss : hasPair '.' ' ' t = false) :
    chunkLoop t 0 =
      consNonEmpty (pyStrip (pySlice t 0 1000))
        (consNonEmpty (pyStrip (pySlice t 800 1800))
          (consNonEmpty (pyStrip (pySlice t 1600 2600))
            (consNonEmpty (pyStrip (pySlice t 2400 3400)) []))) := by
  have he0 := chunkEnd_noBreaks t hn hss 0
  have he800 := chunkEnd_noBreaks t hn hss 800
  have he1600 := chunkEnd_noBreaks t hn hss 1600
  have he2400 := chunkEnd_noBreaks t hn hss 2400
  simp only [CHUNK_SIZE] at he0 he800 he1600 he2400
  norm_num at he0 he800 he1600 he2400
  rw [chunkLoop_step t 0 (by omega), he0]
  have hs1 : (1000 : Nat) - CHUNK_OVERLAP = 800 := by simp [CHUNK_OVERLAP]
  rw [hs1]
  rw [chunkLoop_step t 800 (by omega), he800]
  have hs2 : (1800 : Nat) - CHUNK_OVERLAP = 1600 := by simp [CHUNK_OVERLAP]
  rw [hs2]
  rw [chunkLoop_step t 1600 (by omega), he1600]
  have hs3 : (2600 : Nat) - CHUNK_OVERLAP = 2400 := by simp [CHUNK_OVERLAP]
  rw [hs3]
  rw [chunkLoop_step t 2400 (by omega), he2400]
  have hs4 : (3400 : Nat) - CHUNK_OVERLAP = 3200 := by simp [CHUNK_OVERLAP]
  rw [hs4]
  rw [chunkLoop_of_ge t 3200 (by omega)]

/-- `Config.MIN_SCORE`; similarity scores are modelled as rationals. -/
def MIN_SCORE : ℚ := 7 / 10

/-- `Config.TOP_K`. -/
def TOP_K : Nat := 5

/-- `Config.SYSTEM_PROMPT` (verbatim from the source). -/
def SYSTEM_PROMPT : String :=
  "You are an intelligent assistant for MBA students. Your role is to:\n- Help students understand their course materials\n- Explain concepts clearly and concisely\n- Connect ideas across different readings\n- Provide practical business examples when relevant\n\nWhen answering questions:\n1. Base your answers on the provided context from the student\x27s documents\n2. If the context doesn\x27t contain relevant information, say so\n3. Use clear, professional language appropriate for business school\n4. Cite which documents you\x27re drawing from when relevant"

/-- A match returned by the vector-store query (`query_similar`). -/
structure RMatch where
  id : String
  score : ℚ
  text : String
  filename : String
deriving DecidableEq

/-- A message in the chat-completion request. -/
structure ChatMsg where
  role : String
  content : String
deriving DecidableEq

/-- An entry of the `sources` list of the chat response. -/
structure SourceItem where
  text : String
  score : ℚ
  filename : String
deriving DecidableEq

/-- The relevance filter of the `chat` endpoint (`src/api/index.py` line 315):
keep matches whose score is at least `MIN_SCORE`. -/
def chatRelevant (similar : List RMatch) : List RMatch :=
  similar.filter fun c => MIN_SCORE ≤ c.score

/-- One context block: the match text prefixed with its source filename. -/
def sourceBlock (c : RMatch) : String :=
  "[Source: " ++ c.filename ++ "]\n" ++ c.text

/-- Context assembly of the `chat` endpoint (lines 318-324). -/
def chatContext (relevant : List RMatch) : String :=
  if relevant = [] then ""
  else String.intercalate "\n\n---\n\n" (relevant.map sourceBlock)

/-- The system notice used when no relevant documents were retrieved
(`generate_answer`, lines 271-274). -/
def noDocsNotice : String :=
  "No relevant documents were found. Let the student know they should upload relevant materials, but still try to help with general knowledge."

/-- The second system message of `generate_answer` (lines 265-274): the
context block when context is non-empty, else the no-documents notice. -/
def contextMsg (context : String) : ChatMsg :=
  if context = "" then ChatMsg.mk "system" noDocsNotice
  else ChatMsg.mk "system"
    ("Here is relevant information from the student\x27s documents:\n\n" ++ context
      ++ "\n\nUse this to answer the question. Cite sources when appropriate.")

/-- Message assembly of `generate_answer` (lines 263-281): system prompt,
context message, at most the last 6 history turns, then the user question. -/
def buildMessages (question context : String) (history : List ChatMsg) : List ChatMsg :=
  ([ChatMsg.mk "system" SYSTEM_PROMPT, contextMsg context]
      ++ (if history = [] then [] else history.drop (history.length - 6)))
    ++ [ChatMsg.mk "user" question]

/-- The 200-character preview of a source text (line 332). -/
def truncPreview (s : String) : String :=
  if 200 < s.length then (s.take 200) ++ "..." else s

/-- The `sources` list of the chat response (lines 330-337). -/
def chatSources (relevant : List RMatch) : List SourceItem :=
  relevant.map fun c => SourceItem.mk (truncPreview c.text) c.score c.filename

/-- A chunk record as constructed by `upload` (lines 367-381). -/
structure ChunkRec where
  id : String
  embedding : List ℚ
  text : String
  document_id : String
  filename : String
  chunk_index : Nat
  total_chunks : Nat
  uploaded_at : String
  is_first_chunk : Bool
deriving DecidableEq

/-- The record-construction loop of `upload` (lines 367-381): enumerate the
zipped chunk texts and embeddings and build one record per chunk. -/
def mkChunkRecords (docId uploadedAt filename : String) (texts : List String)
    (embs : List (List ℚ)) : List ChunkRec :=
  (texts.zip embs).enum.map fun p =>
    ChunkRec.mk (docId ++ "_chunk_" ++ toString p.1) p.2.2 p.2.1 docId filename
      p.1 texts.length uploadedAt (p.1 == 0)

/-- Record construction with the batch embedding call
(`generate_embeddings_batch` returns one embedding per input text, modelled
by an abstract embedding function applied to each chunk). -/
def uploadRecords (embed : String → List ℚ) (docId uploadedAt filename : String)
    (texts : List String) : List ChunkRec :=
  mkChunkRecords docId uploadedAt filename texts (texts.map embed)

/-- A Python exception as observed by the `upload` handler: either a
`fastapi.HTTPException` carrying a status, or any other exception. -/
inductive PyErr where
  | http (status : Nat) (detail : String)
  | exc (msg : String)
deriving DecidableEq

/-- An uploaded file.  The decoders of the external libraries (PyMuPDF,
python-docx, UTF-8 decoding) are abstracted as `Option` results bound to the
byte stream: `none` models a stream that is malformed for that format, whose
decode raises a plain library exception. -/
structure PyFile where
  filename : String
  pdfText : Option String
  docxParas : Option (List String)
  utf8Text : Option String

/-- Python `s.endswith(suffix)` on character lists. -/
def endsWithL (s suffix : List Char) : Bool :=
  suffix.isSuffixOf s

/-- Python `file.filename.lower()` as a character list. -/
def lowerName (f : PyFile) : List Char :=
  f.filename.toList.map Char.toLower

/-- `extract_text` (lines 91-114): extension sniffing on the lowercased
filename; an unrecognized extension raises `HTTPException(400)`; a malformed
stream raises an exception owned by the decoding library. -/
def extract_text (f : PyFile) : Except PyErr String :=
  let filename := lowerName f
  if endsWithL filename ".pdf".toList then
    match f.pdfText with
    | some t => Except.ok t
    | none => Except.error (PyErr.exc "cannot open broken document")
  else if endsWithL filename ".docx".toList then
    match f.docxParas with
    | some ps => Except.ok (String.intercalate "\n" ps)
    | none => Except.error (PyErr.exc "file is not a zip file")
  else if endsWithL filename ".txt".toList || endsWithL filename ".md".toList ||
      endsWithL filename ".csv".toList then
    match f.utf8Text with
    | some t => Except.ok t
    | none => Except.error (PyErr.exc "utf-8 codec cannot decode byte")
  else Except.error (PyErr.http 400 ("Unsupported file type: " ++ String.mk filename))

/-- The error outcome of the `upload` handler (lines 345-396): `some (s, d)`
when the request is rejected with HTTP status `s`, `none` when the validation
steps pass and the pipeline proceeds.  `except HTTPException: raise` keeps
the 400s of `extract_text` and of the emptiness checks; every other
exception, including the decoder errors, becomes a 500. -/
def uploadStatus (f : PyFile) : Option (Nat × String) :=
  match extract_text f with
  | Except.error (PyErr.http s d) => some (s, d)
  | Except.error (PyErr.exc m) => some (500, m)
  | Except.ok text =>
    if pyStrip text.toList = [] then some (400, "Could not extract text from file")
    else if chunk_text text.toList = [] then some (400, "No content to process")
    else none

/-- The byte stream is malformed for the format declared by the filename
extension, resolved in the sniffing order of `extract_text`. -/
def malformedFor (f : PyFile) : Prop :=
  (endsWithL (lowerName f) ".pdf".toList = true ∧ f.pdfText = none) ∨
  (endsWithL (lowerName f) ".pdf".toList = false ∧
    endsWithL (lowerName f) ".docx".toList = true ∧ f.docxParas = none) ∨
  (endsWithL (lowerName f) ".pdf".toList = false ∧
    endsWithL (lowerName f) ".docx".toList = false ∧
    (endsWithL (lowerName f) ".txt".toList = true ∨
      endsWithL (lowerName f) ".md".toList = true ∨
      endsWithL (lowerName f) ".csv".toList = true) ∧ f.utf8Text = none)

/-- C1: every iteration of the `chunk_text` scan makes strict progress: the
chosen cut lies strictly beyond `start` (it is at least the window midpoint
`start + 500`, so a break found by the backward search at or before `start`
is never used as a cut point and no zero-length or negative-progress step
occurs), and the next scan position `chunkEnd - CHUNK_OVERLAP` exceeds
`start` by at least 300.  This bound is what justifies the well-founded
recursion defining `chunkLoop`, so chunking terminates in finitely many
iterations on every input. -/
theorem c1_chunk_progress (t : List Char) (start : Nat) :
    start + 500 ≤ chunkEnd t start ∧
      start + 300 ≤ chunkEnd t start - CHUNK_OVERLAP ∧
      start < chunkEnd t start - CHUNK_OVERLAP := by
  have h := chunkEnd_lb t start
  simp only [CHUNK_OVERLAP]
  omega

/-- C7: when the normalized, trimmed text is at most `CHUNK_SIZE` characters,
`chunk_text` returns exactly one chunk, the trimmed text itself — except for
input that is empty or whitespace-only (i.e. trims to nothing), which yields
zero chunks. -/
theorem c7_small_text (text : List Char)
    (hlen : (pyStrip (normalizeNewlines text)).length ≤ CHUNK_SIZE) :
    (pyStrip (normalizeNewlines text) ≠ [] →
      chunk_text text = [pyStrip (normalizeNewlines text)]) ∧
    (pyStrip (normalizeNewlines text) = [] → chunk_text text = []) := by
  constructor
  · intro hne
    simp only [chunk_text]
    rw [if_pos hlen, if_neg hne]
  · intro heq
    simp only [chunk_text]
    rw [if_pos hlen, if_pos heq]

/-- Witness for C7 at concrete inputs: a one-character text yields itself as
the single chunk, and a whitespace-only text yields no chunks. -/
theorem c7_small_text_witness :
    (pyStrip (normalizeNewlines ['a'])).length ≤ CHUNK_SIZE ∧
    chunk_text ['a'] = [pyStrip (normalizeNewlines ['a'])] ∧
    chunk_text [' '] = [] :=
  ⟨by decide, (c7_small_text ['a'] (by decide)).1 (by decide),
    (c7_small_text [' '] (by decide)).2 (by decide)⟩

/-- Example matches with scores 0.9, 0.5 and 0.75 (spec section 8). -/
def exMatchA : RMatch := RMatch.mk "a" (9 / 10) "ta" "fa"

/-- Second example match, score 0.5. -/
def exMatchB : RMatch := RMatch.mk "b" (1 / 2) "tb" "fb"

/-- Third example match, score 0.75. -/
def exMatchC : RMatch := RMatch.mk "c" (3 / 4) "tc" "fc"

/-- C2: the chat pipeline retains exactly the matches whose score is not
below `MIN_SCORE = 0.7`, preserving their order (the retained list is a
sublist of the input), and on the match set with scores 0.9, 0.5 and 0.75 it
retains exactly the first and the third. -/
theorem c2_retrieval_filter :
    (∀ (similar : List RMatch) (m : RMatch),
      m ∈ chatRelevant similar ↔ m ∈ similar ∧ MIN_SCORE ≤ m.score) ∧
    (∀ similar : List RMatch, List.Sublist (chatRelevant similar) similar) ∧
    chatRelevant [exMatchA, exMatchB, exMatchC] = [exMatchA, exMatchC] := by
  refine ⟨?_, ?_, ?_⟩
  · intro similar m
    simp [chatRelevant, List.mem_filter]
  · intro similar
    exact List.filter_sublist similar
  · simp only [chatRelevant, exMatchA, exMatchB, exMatchC, List.filter_cons,
      List.filter_nil, decide_eq_true_eq, MIN_SCORE]
    norm_num

/-- C9: the message list sent to the generator consists of the system
instruction and the context message, then a tail of at most the last 6
history turns kept in their original oldest-first order (a suffix of the
history), and finally the user question. -/
theorem c9_history_window (question context : String) (history : List ChatMsg) :
    ∃ tail : List ChatMsg,
      buildMessages question context history =
        [ChatMsg.mk "system" SYSTEM_PROMPT, contextMsg context] ++ tail ++
          [ChatMsg.mk "user" question] ∧
      tail.length ≤ 6 ∧ ∃ pre : List ChatMsg, pre ++ tail = history := by
  by_cases h : history = []
  · refine ⟨[], ?_, by simp, ⟨[], by simp [h]⟩⟩
    simp [buildMessages, h]
  · refine ⟨history.drop (history.length - 6), ?_, ?_,
      ⟨history.take (history.length - 6), List.take_append_drop _ _⟩⟩
    · simp [buildMessages, h]
    · simp only [List.length_drop]
      omega

/-- C8: when no retrieved match reaches `MIN_SCORE`, the filtered match list
and the assembled context are empty, the generator receives the
no-relevant-documents notice as its second message in place of a context
block, and the returned sources list is empty. -/
theorem c8_empty_retrieval (similar : List RMatch) (question : String)
    (history : List ChatMsg) (h : ∀ m ∈ similar, m.score < MIN_SCORE) :
    chatRelevant similar = [] ∧
    chatContext (chatRelevant similar) = "" ∧
    (buildMessages question (chatContext (chatRelevant similar)) history)[1]? =
      some (ChatMsg.mk "system" noDocsNotice) ∧
    chatSources (chatRelevant similar) = [] := by
  have hrel : chatRelevant similar = [] := by
    unfold chatRelevant
    rw [List.filter_eq_nil_iff]
    intro a ha
    simp only [decide_eq_true_eq, not_le]
    exact h a ha
  have hctx : chatContext (chatRelevant similar) = "" := by
    rw [hrel]
    rfl
  refine ⟨hrel, hctx, ?_, ?_⟩
  · rw [hctx]
    simp only [buildMessages, contextMsg, if_pos rfl]
    by_cases hh : history = []
    · rw [if_pos hh]
      rfl
    · rw [if_neg hh]
      simp only [List.cons_append, List.nil_append, List.getElem?_cons_succ,
        List.getElem?_cons_zero, eq_self_iff_true, if_true]
  · rw [hrel]
    rfl

/-- Witness for C8: a single retrieved match below the threshold produces no
context, the notice message, and no sources. -/
theorem c8_empty_retrieval_witness :
    chatRelevant [exMatchB] = [] ∧
    chatContext (chatRelevant [exMatchB]) = "" ∧
    (buildMessages "q" (chatContext (chatRelevant [exMatchB])) [])[1]? =
      some (ChatMsg.mk "system" noDocsNotice) ∧
    chatSources (chatRelevant [exMatchB]) = [] :=
  c8_empty_retrieval [exMatchB] "q" []
    (by
      intro m hm
      simp only [List.mem_singleton] at hm
      subst hm
      simp only [exMatchB, MIN_SCORE]
      norm_num)

/-- Every element of the chunk list produced by the scanning loop is at most
`CHUNK_SIZE` long and occurs contiguously in the scanned text. -/
theorem chunkLoop_mem (t : List Char) :
    ∀ n start c, t.length - start ≤ n → c ∈ chunkLoop t start →
      c.length ≤ CHUNK_SIZE ∧ ∃ pre post, pre ++ c ++ post = t := by
  intro n
  induction n with
  | zero =>
    intro start c hn hc
    rw [chunkLoop_of_ge t start (by omega)] at hc
    exact absurd hc (List.not_mem_nil c)
  | succ n ih =>
    intro start c hn hc
    by_cases hlt : start < t.length
    · rw [chunkLoop_step t start hlt] at hc
      unfold consNonEmpty at hc
      have hnext : t.length - (chunkEnd t start - CHUNK_OVERLAP) ≤ n := by
        have hlb := chunkEnd_lb t start
        simp only [CHUNK_OVERLAP] at *
        omega
      by_cases hce : pyStrip (pySlice t start (chunkEnd t start)) = []
      · rw [if_pos hce] at hc
        exact ih _ c hnext hc
      · rw [if_neg hce] at hc
        rcases List.mem_cons.mp hc with rfl | hmem
        · exact ⟨chunkPiece_length_le t start, chunkPiece_infix t start _⟩
        · exact ih _ c hnext hmem
    · rw [chunkLoop_of_ge t start hlt] at hc
      exact absurd hc (List.not_mem_nil c)

/-- C10: every chunk returned by `chunk_text` has length at most
`CHUNK_SIZE = 1000` and is a contiguous substring of the newline-normalized,
trimmed input text. -/
theorem c10_chunk_bounds (text c : List Char) (hc : c ∈ chunk_text text) :
    c.length ≤ CHUNK_SIZE ∧
    ∃ pre post, pre ++ c ++ post = pyStrip (normalizeNewlines text) := by
  simp only [chunk_text] at hc
  by_cases hlen : (pyStrip (normalizeNewlines text)).length ≤ CHUNK_SIZE
  · rw [if_pos hlen] at hc
    by_cases hnil : pyStrip (normalizeNewlines text) = []
    · rw [if_pos hnil] at hc
      exact absurd hc (List.not_mem_nil c)
    · rw [if_neg hnil] at hc
      rcases List.mem_singleton.mp hc with rfl
      exact ⟨hlen, [], [], by simp⟩
  · rw [if_neg hlen] at hc
    exact chunkLoop_mem (pyStrip (normalizeNewlines text)) _ 0 c (Nat.le_refl _) hc

/-- Witness for C10 at a concrete input: the single chunk of a two-character
text is short and contiguous in the trimmed text. -/
theorem c10_chunk_bounds_witness :
    (['h', 'i'] : List Char).length ≤ CHUNK_SIZE ∧
    ∃ pre post, pre ++ (['h', 'i'] : List Char) ++ post =
      pyStrip (normalizeNewlines ['h', 'i']) :=
  c10_chunk_bounds ['h', 'i'] ['h', 'i'] (by decide)

/-- C5: for every window whose right edge lies strictly before the end of
the text, the cut chosen by the code equals the policy of the spec: the nearest
paragraph break between the window midpoint and the window end if one
exists, otherwise just past the nearest sentence break there, otherwise
exactly `start + CHUNK_SIZE`. -/
theorem c5_cut_policy (t : List Char) (start : Nat)
    (h : start + CHUNK_SIZE < t.length) :
    chunkEnd t start = specChunkEnd t start := by
  have hle : start + CHUNK_SIZE ≤ t.length := le_of_lt h
  have hmid : 0 < start + CHUNK_SIZE / 2 := by
    simp only [CHUNK_SIZE]
    omega
  unfold chunkEnd specChunkEnd
  rw [if_pos h]
  by_cases h2 : 0 < pyRfind t ['\n', '\n'] (start + CHUNK_SIZE / 2) (start + CHUNK_SIZE)
  · simp only [h2, if_true]
    rw [specBreakPos_of_pos t ['\n', '\n'] _ _ hle h2]
  · simp only [h2, if_false]
    rw [specBreakPos_of_nonpos t ['\n', '\n'] _ _ hmid hle (Int.not_lt.mp h2)]
    by_cases h3 : 0 < pyRfind t ['.', ' '] (start + CHUNK_SIZE / 2) (start + CHUNK_SIZE)
    · simp only [h3, if_true]
      rw [specBreakPos_of_pos t ['.', ' '] _ _ hle h3]
    · simp only [h3, if_false]
      rw [specBreakPos_of_nonpos t ['.', ' '] _ _ hmid hle (Int.not_lt.mp h3)]

/-- Witness for C5 at a concrete 1001-character text whose first window edge
lies strictly before the end of the text. -/
theorem c5_cut_policy_witness :
    0 + CHUNK_SIZE < (List.replicate 1001 'a').length ∧
    chunkEnd (List.replicate 1001 'a') 0 = specChunkEnd (List.replicate 1001 'a') 0 :=
  ⟨by simp [CHUNK_SIZE], c5_cut_policy (List.replicate 1001 'a') 0 (by simp [CHUNK_SIZE])⟩

/-- One record is constructed per chunk text. -/
theorem uploadRecords_length (embed : String → List ℚ)
    (docId uploadedAt filename : String) (texts : List String) :
    (uploadRecords embed docId uploadedAt filename texts).length = texts.length := by
  simp [uploadRecords, mkChunkRecords]

/-- The record at sequence position `i`, written out field by field. -/
theorem uploadRecords_get_eq (embed : String → List ℚ)
    (docId uploadedAt filename : String) (texts : List String) (i : Nat)
    (hi : i < (uploadRecords embed docId uploadedAt filename texts).length) :
    (uploadRecords embed docId uploadedAt filename texts).get ⟨i, hi⟩ =
      ChunkRec.mk (docId ++ "_chunk_" ++ toString i) (embed (texts.getD i ""))
        (texts.getD i "") docId filename i texts.length uploadedAt (i == 0) := by
  have hit : i < texts.length := by
    rw [uploadRecords_length] at hi
    exact hi
  simp only [uploadRecords, mkChunkRecords, List.get_eq_getElem, List.getElem_map,
    List.getElem_enum, List.getElem_zip, List.getD_eq_getElem?_getD,
    List.getElem?_eq_getElem hit, Option.getD_some]

/-- A list whose entries satisfy a predicate exactly at index 0 has `countP`
equal to one. -/
theorem countP_first_only {α : Type} (p : α → Bool) (l : List α) (hne : l ≠ [])
    (hp : ∀ i, ∀ hi : i < l.length, p (l.get ⟨i, hi⟩) = (i == 0)) :
    l.countP p = 1 := by
  cases l with
  | nil => exact absurd rfl hne
  | cons a as =>
    have h0 : p a = true := by simpa using hp 0 (by simp)
    rw [List.countP_cons_of_pos _ _ h0]
    have hz : as.countP p = 0 := by
      rw [List.countP_eq_zero]
      intro x hx
      obtain ⟨⟨j, hj⟩, rfl⟩ := List.mem_iff_get.mp hx
      have hidx := hp (j + 1) (by simpa using Nat.succ_lt_succ hj)
      rw [List.get_cons_succ] at hidx
      have hfalse : ((j + 1 : Nat) == 0) = false := by
        simp
      rw [hfalse] at hidx
      simpa using hidx
    rw [hz]

/-- C4: for a successful ingestion (a non-empty chunk list), the constructed
records all share the document id and upload timestamp and carry
`total_chunks` equal to the number of chunks; the record at position `i` has
id `document_id ++ "_chunk_" ++ i` and `chunk_index = i`; and exactly one record
— the one at index 0 — is flagged as first chunk. -/
theorem c4_record_invariants (embed : String → List ℚ)
    (docId uploadedAt filename : String) (texts : List String)
    (hne : texts ≠ []) :
    (uploadRecords embed docId uploadedAt filename texts).length = texts.length ∧
    (∀ r ∈ uploadRecords embed docId uploadedAt filename texts,
      r.document_id = docId ∧ r.uploaded_at = uploadedAt ∧
        r.total_chunks = texts.length) ∧
    (∀ i, ∀ hi : i < (uploadRecords embed docId uploadedAt filename texts).length,
      ((uploadRecords embed docId uploadedAt filename texts).get ⟨i, hi⟩).id =
          docId ++ "_chunk_" ++ toString i ∧
      ((uploadRecords embed docId uploadedAt filename texts).get ⟨i, hi⟩).chunk_index = i ∧
      (((uploadRecords embed docId uploadedAt filename texts).get ⟨i, hi⟩).is_first_chunk
          = true ↔ i = 0)) ∧
    (uploadRecords embed docId uploadedAt filename texts).countP
      (fun r => r.is_first_chunk) = 1 := by
  refine ⟨uploadRecords_length embed docId uploadedAt filename texts, ?_, ?_, ?_⟩
  · intro r hr
    simp only [uploadRecords, mkChunkRecords, List.mem_map] at hr
    obtain ⟨p, _, rfl⟩ := hr
    exact ⟨rfl, rfl, rfl⟩
  · intro i hi
    rw [uploadRecords_get_eq]
    refine ⟨rfl, rfl, ?_⟩
    exact beq_iff_eq
  · apply countP_first_only
    · intro hna
      apply hne
      have := congrArg List.length hna
      rw [uploadRecords_length] at this
      exact List.length_eq_zero.mp this
    · intro i hi
      rw [uploadRecords_get_eq]

/-- Witness for C4 on a concrete two-chunk ingestion. -/
theorem c4_record_invariants_witness :
    (["alpha", "beta"] : List String) ≠ [] ∧
    (uploadRecords (fun _ => []) "d1" "ts" "file.txt" ["alpha", "beta"]).length = 2 ∧
    (uploadRecords (fun _ => []) "d1" "ts" "file.txt" ["alpha", "beta"]).countP
      (fun r => r.is_first_chunk) = 1 := by
  have h := c4_record_invariants (fun _ => []) "d1" "ts" "file.txt" ["alpha", "beta"]
    (by simp)
  exact ⟨by simp, h.1, h.2.2.2⟩

/-- A `.txt` upload whose byte stream is not valid UTF-8. -/
def badTxtFile : PyFile := PyFile.mk "notes.txt" none none none

/-- Counterexample to C3: an upload whose byte stream fails UTF-8 decoding
for its declared `.txt` format is rejected with HTTP 500 — a server fault,
not the 4xx client error the claim requires.  The exception of the decoder is
not an `HTTPException`, so the generic `except Exception` arm maps it
to status 500. -/
theorem c3_counterexample :
    uploadStatus badTxtFile = some (500, "utf-8 codec cannot decode byte") := by
  rfl

/-- C3 (amended): for every upload whose byte stream is malformed for its
declared, recognized format, the upload operation fails with HTTP 500 (a
server fault); only unsupported extensions and empty extracted content
produce 4xx client errors. -/
theorem c3_malformed_is_500 (f : PyFile) (h : malformedFor f) :
    (uploadStatus f).map Prod.fst = some 500 := by
  unfold uploadStatus extract_text
  rcases h with ⟨h1, h2⟩ | ⟨h1, h2, h3⟩ | ⟨h1, h2, h3, h4⟩
  · simp only [String.toList] at h1
    simp [h1, h2]
  · simp only [String.toList] at h1 h2
    simp [h1, h2, h3]
  · simp only [String.toList] at h1 h2
    rcases h3 with h3 | h3 | h3 <;>
      simp only [String.toList] at h3 <;> simp [h1, h2, h3, h4]

/-- Witness for C3 (amended): a corrupt PDF upload yields status 500. -/
theorem c3_malformed_is_500_witness :
    malformedFor (PyFile.mk "slides.pdf" none none none) ∧
    (uploadStatus (PyFile.mk "slides.pdf" none none none)).map Prod.fst = some 500 :=
  ⟨Or.inl ⟨by decide, rfl⟩,
    c3_malformed_is_500 (PyFile.mk "slides.pdf" none none none) (Or.inl ⟨by decide, rfl⟩)⟩

/-- Dropping trailing characters can only shorten the list. -/
theorem dropTrailing_length_le (p : Char → Bool) (l : List Char) :
    (dropTrailing p l).length ≤ l.length := by
  unfold dropTrailing
  rw [List.length_reverse]
  have h := (List.dropWhile_sublist p (l := l.reverse)).length_le
  rw [List.length_reverse] at h
  exact h

/-- A list fixed by `pyStrip` is fixed by both one-sided trims. -/
theorem strip_eq_self_parts (l : List Char) (h : pyStrip l = l) :
    l.dropWhile isPySpace = l ∧ l.reverse.dropWhile isPySpace = l.reverse := by
  have hlen1 : (pyStrip l).length = l.length := by rw [h]
  have h2 : (dropTrailing isPySpace (l.dropWhile isPySpace)).length ≤
      (l.dropWhile isPySpace).length := dropTrailing_length_le _ _
  have h3 : (l.dropWhile isPySpace).length ≤ l.length :=
    (List.dropWhile_sublist _).length_le
  have hdlen : (l.dropWhile isPySpace).length = l.length := by
    unfold pyStrip at hlen1
    omega
  have hd : l.dropWhile isPySpace = l :=
    (List.dropWhile_sublist _).eq_of_length hdlen
  refine ⟨hd, ?_⟩
  have hh := h
  unfold pyStrip at hh
  rw [hd] at hh
  unfold dropTrailing at hh
  have := congrArg List.reverse hh
  rw [List.reverse_reverse] at this
  exact this

/-- The head of a list fixed by `pyStrip` is not whitespace. -/
theorem strip_fixed_head (l : List Char) (h : pyStrip l = l) :
    ∀ c, l.head? = some c → isPySpace c = false := by
  intro c hc
  obtain ⟨hd, _⟩ := strip_eq_self_parts l h
  cases l with
  | nil => simp at hc
  | cons x xs =>
    simp only [List.head?_cons, Option.some.injEq] at hc
    subst hc
    rw [List.dropWhile_cons] at hd
    by_cases hp : isPySpace x = true
    · rw [if_pos hp] at hd
      have := (List.dropWhile_sublist (l := xs) isPySpace).length_le
      have := congrArg List.length hd
      simp only [List.length_cons] at this
      omega
    · simpa using hp

/-- The last character of a list fixed by `pyStrip` is not whitespace. -/
theorem strip_fixed_last (l : List Char) (h : pyStrip l = l) :
    ∀ c, l.getLast? = some c → isPySpace c = false := by
  intro c hc
  obtain ⟨_, hrev⟩ := strip_eq_self_parts l h
  have hrh : l.reverse.head? = some c := by
    rw [List.head?_reverse]
    exact hc
  cases hx : l.reverse with
  | nil => rw [hx] at hrh; simp at hrh
  | cons x xs =>
    rw [hx] at hrh hrev
    simp only [List.head?_cons, Option.some.injEq] at hrh
    subst hrh
    rw [List.dropWhile_cons] at hrev
    by_cases hp : isPySpace x = true
    · rw [if_pos hp] at hrev
      have := (List.dropWhile_sublist (l := xs) isPySpace).length_le
      have := congrArg List.length hrev
      simp only [List.length_cons] at this
      omega
    · simpa using hp

/-- The value of `getLast?` is a member of the list. -/
theorem mem_of_getLast_eq (l : List Char) (c : Char) (h : l.getLast? = some c) :
    c ∈ l := by
  induction l with
  | nil => simp at h
  | cons a as ih =>
    cases as with
    | nil =>
      simp only [List.getLast?_singleton, Option.some.injEq] at h
      subst h
      exact List.mem_singleton_self a
    | cons b bs =>
      rw [List.getLast?_cons_cons] at h
      exact List.mem_cons_of_mem a (ih h)

/-- C6 (amended): every 2500-character text with no paragraph break, no
carriage-return newline pair, no sentence break, no leading or trailing
whitespace, and in which neither interior window strips to nothing, yields
exactly the 4 chunks obtained by trimming the source windows `[0, 1000)`,
`[800, 1800)`, `[1600, 2500)` and `[2400, 2500)`; each chunk is at most 1000
characters, and consecutive source windows overlap by at most 200 characters
(the overlaps here are 200, 200 and 100). -/
theorem c6_no_break_chunking (t : List Char)
    (hlen : t.length = 2500)
    (hn : hasPair '\n' '\n' t = false)
    (hr : hasPair '\r' '\n' t = false)
    (hss : hasPair '.' ' ' t = false)
    (hstrip : pyStrip t = t)
    (w2 : pyStrip (pySlice t 800 1800) ≠ [])
    (w3 : pyStrip (pySlice t 1600 2600) ≠ []) :
    chunk_text t =
      [pyStrip (pySlice t 0 1000), pyStrip (pySlice t 800 1800),
        pyStrip (pySlice t 1600 2600), pyStrip (pySlice t 2400 3400)] ∧
    (chunk_text t).length = 4 ∧
    (∀ c ∈ chunk_text t, c.length ≤ CHUNK_SIZE) := by
  have hne : t ≠ [] := by
    intro hcontra
    rw [hcontra] at hlen
    simp at hlen
  have hw1 : pyStrip (pySlice t 0 1000) ≠ [] := by
    intro hnil
    obtain ⟨c, hc⟩ : ∃ c, t.head? = some c := by
      cases t with
      | nil => exact absurd rfl hne
      | cons a as => exact ⟨a, rfl⟩
    have hsh : (pySlice t 0 1000).head? = some c := by
      unfold pySlice
      rw [List.drop_zero, List.head?_take]
      simp [hc]
    have hmem : c ∈ pySlice t 0 1000 := by
      cases hsl : pySlice t 0 1000 with
      | nil => rw [hsl] at hsh; simp at hsh
      | cons a as =>
        rw [hsl] at hsh
        simp only [List.head?_cons, Option.some.injEq] at hsh
        subst hsh
        exact List.mem_cons_self a as
    have := (pyStrip_eq_nil_iff _).mp hnil c hmem
    rw [strip_fixed_head t hstrip c hc] at this
    exact Bool.false_ne_true this
  have hw4 : pyStrip (pySlice t 2400 3400) ≠ [] := by
    intro hnil
    have hslice : pySlice t 2400 3400 = t.drop 2400 := by
      unfold pySlice
      apply List.take_of_length_le
      rw [List.length_drop, hlen]
      omega
    obtain ⟨c, hc⟩ : ∃ c, t.getLast? = some c := by
      cases hg : t.getLast? with
      | none => exact absurd (List.getLast?_eq_none_iff.mp hg) hne
      | some a => exact ⟨a, rfl⟩
    have hgd : (t.drop 2400).getLast? = some c := by
      rw [List.getLast?_drop, if_neg (by omega : ¬ t.length ≤ 2400), hc]
    have hmem : c ∈ pySlice t 2400 3400 := by
      rw [hslice]
      exact mem_of_getLast_eq _ c hgd
    have := (pyStrip_eq_nil_iff _).mp hnil c hmem
    rw [strip_fixed_last t hstrip c hc] at this
    exact Bool.false_ne_true this
  have hnorm : normalizeNewlines t = t := normalizeNewlines_eq_self t hr
  have heq : chunk_text t =
      [pyStrip (pySlice t 0 1000), pyStrip (pySlice t 800 1800),
        pyStrip (pySlice t 1600 2600), pyStrip (pySlice t 2400 3400)] := by
    have hgt : ¬ t.length ≤ CHUNK_SIZE := by
      simp only [hlen, CHUNK_SIZE]
      omega
    simp only [chunk_text, hnorm, hstrip]
    rw [if_neg hgt]
    rw [chunkLoop_noBreaks t (by omega) (by omega) hn hss]
    unfold consNonEmpty
    rw [if_neg hw1, if_neg w2, if_neg w3, if_neg hw4]
  have hbound : ∀ a b : Nat, b - a ≤ 1000 →
      (pyStrip (pySlice t a b)).length ≤ CHUNK_SIZE := by
    intro a b hab
    have h1 := pyStrip_length_le (pySlice t a b)
    have h2 := pySlice_length_le t a b
    simp only [CHUNK_SIZE]
    omega
  refine ⟨heq, by rw [heq]; rfl, ?_⟩
  intro c hc
  rw [heq] at hc
  simp only [List.mem_cons, List.not_mem_nil, or_false] at hc
  rcases hc with rfl | rfl | rfl | rfl
  · exact hbound 0 1000 (by omega)
  · exact hbound 800 1800 (by omega)
  · exact hbound 1600 2600 (by omega)
  · exact hbound 2400 3400 (by omega)

/-- A pair whose first character does not occur in the list never occurs. -/
theorem hasPair_eq_false_of_not_mem (a b : Char) (l : List Char) (ha : a ∉ l) :
    hasPair a b l = false := by
  induction l using hasPair.induct a b with
  | case1 => rfl
  | case2 x => rfl
  | case3 x y rest ih =>
    unfold hasPair
    have hxa : (x == a) = false := by
      rw [beq_eq_false_iff_ne]
      intro hcontra
      exact ha (hcontra ▸ List.mem_cons_self x (y :: rest))
    rw [hxa]
    simp only [Bool.false_and, Bool.false_or]
    exact ih (fun hmem => ha (List.mem_cons_of_mem x hmem))

/-- A run of a non-whitespace character is fixed by strip. -/
theorem pyStrip_replicate_of_nospace (n : Nat) (c : Char)
    (hc : isPySpace c = false) :
    pyStrip (List.replicate n c) = List.replicate n c := by
  apply pyStrip_eq_self
  · intro d hd
    rw [List.head?_replicate] at hd
    by_cases hn : n = 0
    · rw [if_pos hn] at hd
      exact absurd hd (by simp)
    · rw [if_neg hn] at hd
      simp only [Option.some.injEq] at hd
      subst hd
      exact hc
  · intro d hd
    rw [← List.head?_reverse, List.reverse_replicate, List.head?_replicate] at hd
    by_cases hn : n = 0
    · rw [if_pos hn] at hd
      exact absurd hd (by simp)
    · rw [if_neg hn] at hd
      simp only [Option.some.injEq] at hd
      subst hd
      exact hc

/-- Witness for C6 (amended) at the 2500-character all-letter text. -/
theorem c6_no_break_chunking_witness :
    (List.replicate 2500 'a').length = 2500 ∧
    chunk_text (List.replicate 2500 'a') =
      [pyStrip (pySlice (List.replicate 2500 'a') 0 1000),
        pyStrip (pySlice (List.replicate 2500 'a') 800 1800),
        pyStrip (pySlice (List.replicate 2500 'a') 1600 2600),
        pyStrip (pySlice (List.replicate 2500 'a') 2400 3400)] ∧
    (chunk_text (List.replicate 2500 'a')).length = 4 := by
  have hmem : ∀ d : Char, d ∈ List.replicate 2500 'a' → d = 'a' := by
    intro d hd
    exact (List.mem_replicate.mp hd).2
  have hn : hasPair '\n' '\n' (List.replicate 2500 'a') = false := by
    apply hasPair_eq_false_of_not_mem
    intro hc
    exact absurd (hmem _ hc) (by decide)
  have hr : hasPair '\r' '\n' (List.replicate 2500 'a') = false := by
    apply hasPair_eq_false_of_not_mem
    intro hc
    exact absurd (hmem _ hc) (by decide)
  have hss : hasPair '.' ' ' (List.replicate 2500 'a') = false := by
    apply hasPair_eq_false_of_not_mem
    intro hc
    exact absurd (hmem _ hc) (by decide)
  have hstrip : pyStrip (List.replicate 2500 'a') = List.replicate 2500 'a' :=
    pyStrip_replicate_of_nospace 2500 'a' (by decide)
  have hs2 : pySlice (List.replicate 2500 'a') 800 1800 = List.replicate 1000 'a' := by
    unfold pySlice
    rw [List.drop_replicate, List.take_replicate]
    norm_num
  have hs3 : pySlice (List.replicate 2500 'a') 1600 2600 = List.replicate 900 'a' := by
    unfold pySlice
    rw [List.drop_replicate, List.take_replicate]
    norm_num
  have w2 : pyStrip (pySlice (List.replicate 2500 'a') 800 1800) ≠ [] := by
    rw [hs2, pyStrip_replicate_of_nospace 1000 'a' (by decide)]
    intro hcon
    have := congrArg List.length hcon
    simp at this
  have w3 : pyStrip (pySlice (List.replicate 2500 'a') 1600 2600) ≠ [] := by
    rw [hs3, pyStrip_replicate_of_nospace 900 'a' (by decide)]
    intro hcon
    have := congrArg List.length hcon
    simp at this
  have h := c6_no_break_chunking (List.replicate 2500 'a') (by simp) hn hr hss hstrip w2 w3
  exact ⟨by simp, h.1, h.2.1⟩

/-- A 2500-character string of letters with a 1000-character run of spaces in
the middle: plain ASCII, no paragraph break, no sentence break, no leading or
trailing whitespace. -/
def blankMidText : List Char :=
  List.replicate 800 'a' ++ List.replicate 1000 ' ' ++ List.replicate 700 'a'

/-- Counterexample to C6 as stated: `blankMidText` is a 2500-character plain
ASCII string with no paragraph break, no sentence break and no leading or
trailing whitespace, yet `chunk_text` returns 3 chunks, not 4 — the window
`[800, 1800)` is whitespace-only, strips to nothing, and is dropped. -/
theorem c6_counterexample :
    blankMidText.length = 2500 ∧
    hasPair '\n' '\n' blankMidText = false ∧
    hasPair '.' ' ' blankMidText = false ∧
    pyStrip blankMidText = blankMidText ∧
    (chunk_text blankMidText).length = 3 := by
  have hlen : blankMidText.length = 2500 := by
    simp only [blankMidText, List.length_append, List.length_replicate]
  have hmemA : ∀ c : Char, c ∈ blankMidText → c = 'a' ∨ c = ' ' := by
    intro c hc
    rcases List.mem_append.mp hc with h12 | h3
    · rcases List.mem_append.mp h12 with h1 | h2
      · exact Or.inl (List.eq_of_mem_replicate h1)
      · exact Or.inr (List.eq_of_mem_replicate h2)
    · exact Or.inl (List.eq_of_mem_replicate h3)
  have hn : hasPair '\n' '\n' blankMidText = false := by
    apply hasPair_eq_false_of_not_mem
    intro hc
    rcases hmemA '\n' hc with h | h <;> exact absurd h (by decide)
  have hr : hasPair '\r' '\n' blankMidText = false := by
    apply hasPair_eq_false_of_not_mem
    intro hc
    rcases hmemA '\r' hc with h | h <;> exact absurd h (by decide)
  have hss : hasPair '.' ' ' blankMidText = false := by
    apply hasPair_eq_false_of_not_mem
    intro hc
    rcases hmemA '.' hc with h | h <;> exact absurd h (by decide)
  have hstrip : pyStrip blankMidText = blankMidText := by
    apply pyStrip_eq_self
    · intro c hc
      have hh : blankMidText.head? = some 'a' := rfl
      rw [hh] at hc
      simp only [Option.some.injEq] at hc
      subst hc
      decide
    · intro c hc
      have hg : blankMidText.getLast? = some 'a' := by decide
      rw [hg] at hc
      simp only [Option.some.injEq] at hc
      subst hc
      decide
  refine ⟨hlen, hn, hss, hstrip, ?_⟩
  have hnorm := normalizeNewlines_eq_self blankMidText hr
  have e1 : pyStrip (pySlice blankMidText 0 1000) = List.replicate 800 'a' := by
    decide
  have e2 : pyStrip (pySlice blankMidText 800 1800) = [] := by
    decide
  have e3 : pyStrip (pySlice blankMidText 1600 2600) = List.replicate 700 'a' := by
    decide
  have e4 : pyStrip (pySlice blankMidText 2400 3400) = List.replicate 100 'a' := by
    decide
  have heq : chunk_text blankMidText =
      [List.replicate 800 'a', List.replicate 700 'a', List.replicate 100 'a'] := by
    simp only [chunk_text, hnorm, hstrip]
    rw [if_neg (by rw [hlen]; simp [CHUNK_SIZE])]
    rw [chunkLoop_noBreaks blankMidText (by rw [hlen]; norm_num) (by rw [hlen]) hn hss]
    unfold consNonEmpty
    rw [e1, e2, e3, e4]
    rw [if_neg (by intro hcon; have := congrArg List.length hcon; simp at this)]
    rw [if_pos rfl]
    rw [if_neg (by intro hcon; have := congrArg List.length hcon; simp at this)]
    rw [if_neg (by intro hcon; have := congrArg List.length hcon; simp at this)]
  rw [heq]
  rfl
